import Mathlib

/-!
# Verification of the focus-ring core (`src/core/data_types.rs`)

A shallow embedding of the `Ring<T>` data structure and its `Selector`
protocol from the repository's `core/data_types.rs`, together with proofs
about its operations.

Modelling conventions:

* `VecDeque<T>` is modelled as `List T`; `usize` as `Nat`.
* `usize` subtraction is checked: `checkedSub a b` is `none` exactly when the
  Rust expression `a - b` would overflow, which is a fatal arithmetic error
  (panic in a checked build).  Operations whose Rust body can panic are
  therefore `Option`-valued, `none` modelling the panic.
* `VecDeque::remove(i)` returns `Option<T>` and never panics: modelled by
  `vecRemove`.  `VecDeque::swap(i, j)` and `VecDeque::insert(i, x)` panic out
  of range: modelled by `swapChecked` / `Ring.insert` returning `none` there.
  `ops::Index` (`ring[i]`) panics out of range: modelled by `ringIndex`
  returning `none` there.
* Rust `match` arms are translated in source order, so overlapping patterns
  resolve identically.
-/

namespace Penrose

/-- A direction to permute a Ring (`enum Direction`). -/
inductive Direction : Type where
  | Forward : Direction
  | Backward : Direction
deriving DecidableEq, BEq, Repr

/-- `Direction::reverse`. -/
def Direction.reverse : Direction → Direction
  | Direction.Forward => Direction.Backward
  | Direction.Backward => Direction.Forward

/-- `Selector<T>`: which element of a ring an operation targets.  The
`WinId` payload (`u32`) is modelled as `Nat`; the `Condition` payload as a
boolean function on `T`. -/
inductive Selector (T : Type) : Type where
  | Focused : Selector T
  | Index : Nat → Selector T
  | WinId : Nat → Selector T
  | Condition : (T → Bool) → Selector T

/-- `Ring<T>`: an ordered collection (`VecDeque<T>`) plus a `focused` index. -/
structure Ring (T : Type) : Type where
  elements : List T
  focused : Nat
deriving DecidableEq, Repr

/-- Checked `usize` subtraction: `none` is the arithmetic-overflow panic. -/
def checkedSub (a b : Nat) : Option Nat :=
  if b ≤ a then some (a - b) else none

/-- `VecDeque::rotate_left(1)`: the front element moves to the back. -/
def rotL1 : List T → List T
  | [] => []
  | x :: xs => xs ++ [x]

/-- `VecDeque::rotate_right(1)`: the back element moves to the front. -/
def rotR1 (xs : List T) : List T :=
  (rotL1 xs.reverse).reverse

/-- `VecDeque::swap(i, j)`: exchanges the elements at `i` and `j`; panics
(`none`) if either index is out of range. -/
def swapChecked (xs : List T) (i j : Nat) : Option (List T) :=
  match xs[i]?, xs[j]? with
  | some a, some b => some ((xs.set i b).set j a)
  | _, _ => none

/-- `VecDeque::remove(i)`: removes and returns the element at `i`, or returns
`none` (no panic) when `i` is out of range. -/
def vecRemove (xs : List T) (i : Nat) : List T × Option T :=
  match xs[i]? with
  | some a => (xs.eraseIdx i, some a)
  | none => (xs, none)

/-- `VecDeque::insert(i, x)` on a plain list: shifts later elements back. -/
def insertAt : Nat → T → List T → List T
  | 0, x, xs => x :: xs
  | _ + 1, x, [] => [x]
  | n + 1, x, y :: ys => y :: insertAt n x ys

namespace Ring

variable {T : Type}

/-- `Ring::new`: focus starts at position 0. -/
def new (elements : List T) : Ring T :=
  { elements := elements, focused := 0 }

/-- `Ring::len`. -/
def len (r : Ring T) : Nat :=
  r.elements.length

/-- `Ring::focused_index`. -/
def focusedIndex (r : Ring T) : Nat :=
  r.focused

/-- `Ring::focused()`: the element at the `focused` index, if any. -/
def focusedElem (r : Ring T) : Option T :=
  r.elements[r.focused]?

/-- `Ring::would_wrap`.  The Rust body evaluates `self.elements.len() - 1`
unconditionally, so on an empty ring the subtraction overflows (`none`). -/
def wouldWrap (r : Ring T) (dir : Direction) : Option Bool :=
  let wrapBack := r.focused == 0 && dir == Direction.Backward
  (checkedSub r.elements.length 1).map (fun m =>
    wrapBack || (r.focused == m && dir == Direction.Forward))

/-- `Ring::rotate`: no-op on an empty ring, otherwise rotates the whole
sequence one step. -/
def rotate (r : Ring T) (dir : Direction) : Ring T :=
  if r.elements.isEmpty then r
  else
    match dir with
    | Direction.Forward => { r with elements := rotR1 r.elements }
    | Direction.Backward => { r with elements := rotL1 r.elements }

/-- `Ring::next_index`: evaluates `self.elements.len() - 1`, so it overflows
(`none`) on an empty ring. -/
def nextIndex (r : Ring T) (dir : Direction) : Option Nat :=
  (checkedSub r.elements.length 1).map (fun m =>
    match dir with
    | Direction.Forward => if r.focused = m then 0 else r.focused + 1
    | Direction.Backward => if r.focused = 0 then m else r.focused - 1)

/-- `Ring::cycle_focus`: sets `focused` to the next index and returns the
newly focused element. -/
def cycleFocus (r : Ring T) (dir : Direction) : Option (Ring T × Option T) :=
  (r.nextIndex dir).map (fun i =>
    let r' : Ring T := { r with focused := i }
    (r', r'.focusedElem))

/-- The `match` of `Ring::drag_focused` on `(self.focused, next, direction)`,
with its three arms in source order: rotate when dragging past either
boundary, otherwise swap the focused element with the adjacent target. -/
def dragStep (r : Ring T) (nxt : Nat) (dir : Direction) : Option (Ring T) :=
  match r.focused, nxt, dir with
  | 0, _, Direction.Backward => some (r.rotate dir)
  | _, 0, Direction.Forward => some (r.rotate dir)
  | f, o, _ => (swapChecked r.elements f o).map (fun es => { r with elements := es })

/-- `Ring::drag_focused`: repositions the focused element (the `dragStep`
match above) then cycles focus onto it. -/
def dragFocused (r : Ring T) (dir : Direction) : Option (Ring T × Option T) :=
  (r.nextIndex dir).bind (fun nxt =>
    (r.dragStep nxt dir).bind (fun r1 => r1.cycleFocus dir))

/-- `Ring::insert`: `VecDeque::insert` panics (`none`) when the index exceeds
the length. -/
def insert (r : Ring T) (index : Nat) (element : T) : Option (Ring T) :=
  if index ≤ r.elements.length then
    some { r with elements := insertAt index element r.elements }
  else none

/-- `Ring::clamp_focus`: when `focused > 0`, compares against
`self.elements.len() - 1`; the subtraction overflows (`none`) when the ring
is empty and `focused > 0`.  The `&&` short-circuit means nothing is
evaluated when `focused == 0`. -/
def clampFocus (r : Ring T) : Option (Ring T) :=
  if 0 < r.focused then
    (checkedSub r.elements.length 1).map (fun m =>
      if m ≤ r.focused then { r with focused := r.focused - 1 } else r)
  else some r

/-- `Ring::element_by`: first `(index, element)` pair satisfying `cond`. -/
def elementBy (r : Ring T) (cond : T → Bool) : Option (Nat × T) :=
  r.elements.enum.find? (fun p => cond p.2)

/-- `Ring::element_by_mut`: same search as `element_by`. -/
def elementByMut (r : Ring T) (cond : T → Bool) : Option (Nat × T) :=
  r.elements.enum.find? (fun p => cond p.2)

/-- `Ring::element`: non-mutating lookup; `WinId` is ignored. -/
def element (r : Ring T) (s : Selector T) : Option T :=
  match s with
  | Selector.WinId _ => none
  | Selector.Focused => r.focusedElem
  | Selector.Index i => r.elements[i]?
  | Selector.Condition f => (r.elementBy f).map Prod.snd

/-- `Ring::element_mut`: the mutable lookup resolves to the same element. -/
def elementMut (r : Ring T) (s : Selector T) : Option T :=
  match s with
  | Selector.Focused => r.focusedElem
  | Selector.Index i => r.elements[i]?
  | Selector.WinId _ => none
  | Selector.Condition f => (r.elementByMut f).map Prod.snd

/-- `Ring::focus`: returns the new state and the returned element.  Note the
`Index` arm assigns `self.focused = i` before looking the element up, so an
out-of-range `i` is still stored. -/
def focus (r : Ring T) (s : Selector T) : Ring T × Option T :=
  match s with
  | Selector.WinId _ => (r, none)
  | Selector.Focused => (r, r.focusedElem)
  | Selector.Index i =>
      let r' : Ring T := { r with focused := i }
      (r', r'.focusedElem)
  | Selector.Condition f =>
      match r.elementBy f with
      | some (i, _) => ({ r with focused := i }, r.elements[i]?)
      | none => (r, none)

/-- `Ring::remove`: returns the new state and the removed element.  The
`Focused` and `Index` arms call `clamp_focus` even when `VecDeque::remove`
found nothing; the unmatched `Condition` and `WinId` arms do not. -/
def remove (r : Ring T) (s : Selector T) : Option (Ring T × Option T) :=
  match s with
  | Selector.WinId _ => some (r, none)
  | Selector.Focused =>
      let p := vecRemove r.elements r.focused
      (clampFocus { r with elements := p.1 }).map (fun r' => (r', p.2))
  | Selector.Index i =>
      let p := vecRemove r.elements i
      (clampFocus { r with elements := p.1 }).map (fun r' => (r', p.2))
  | Selector.Condition f =>
      match r.elementBy f with
      | some (i, _) =>
          let p := vecRemove r.elements i
          (clampFocus { r with elements := p.1 }).map (fun r' => (r', p.2))
      | none => some (r, none)

/-- The well-formedness invariant claimed by the spec: the focus index is in
range, or the ring is empty with the focus parked at 0. -/
def Inv (r : Ring T) : Prop :=
  r.focused < r.elements.length ∨ (r.elements.length = 0 ∧ r.focused = 0)

instance (r : Ring T) : Decidable r.Inv := by
  unfold Inv
  infer_instance

end Ring

/-- `impl ops::Index for Ring` (`ring[i]`): panics (`none`) out of range. -/
def ringIndex (r : Ring T) (i : Nat) : Option T :=
  r.elements[i]?

/-- One public `Ring` operation, for reasoning about operation sequences. -/
inductive Op (T : Type) : Type where
  | rotate : Direction → Op T
  | cycleFocus : Direction → Op T
  | dragFocused : Direction → Op T
  | insert : Nat → T → Op T
  | element : Selector T → Op T
  | focus : Selector T → Op T
  | remove : Selector T → Op T

/-- The state transition of one operation; `none` models a panic. -/
def applyOp (r : Ring T) : Op T → Option (Ring T)
  | Op.rotate d => some (r.rotate d)
  | Op.cycleFocus d => (r.cycleFocus d).map Prod.fst
  | Op.dragFocused d => (r.dragFocused d).map Prod.fst
  | Op.insert i x => r.insert i x
  | Op.element _ => some r
  | Op.focus s => some (r.focus s).fst
  | Op.remove s => (r.remove s).map Prod.fst

/-- Run a sequence of operations from a starting state. -/
def applyOps (r : Ring T) (ops : List (Op T)) : Option (Ring T) :=
  ops.foldl (fun acc op => acc.bind (fun r' => applyOp r' op)) (some r)

/-- An operation that does not store an out-of-range focus index: `focus`
with an `Index` selector must be in range; every other operation is
unrestricted. -/
def SafeOp (r : Ring T) : Op T → Prop
  | Op.focus (Selector.Index i) => i < r.elements.length
  | _ => True

/-- Reachability by sequences of non-panicking, `SafeOp` operations. -/
inductive Reaches : Ring T → Ring T → Prop where
  | refl (r : Ring T) : Reaches r r
  | step {r1 r2 r3 : Ring T} {op : Op T} :
      Reaches r1 r2 → SafeOp r2 op → applyOp r2 op = some r3 → Reaches r1 r3

/-! ## Helper lemmas -/

theorem checkedSub_succ_one (n : Nat) : checkedSub (n + 1) 1 = some n := by
  simp [checkedSub]

theorem checkedSub_zero_one : checkedSub 0 1 = none := by
  simp [checkedSub]

theorem rotL1_length (xs : List T) : (rotL1 xs).length = xs.length := by
  cases xs <;> simp [rotL1]

theorem rotR1_length (xs : List T) : (rotR1 xs).length = xs.length := by
  simp [rotR1, rotL1_length]

theorem rotR1_rotL1 (xs : List T) : rotR1 (rotL1 xs) = xs := by
  cases xs with
  | nil => rfl
  | cons x t => simp [rotL1, rotR1, List.reverse_append]

theorem rotL1_rotR1 (xs : List T) : rotL1 (rotR1 xs) = xs := by
  rcases h : xs.reverse with _ | ⟨y, t⟩
  · have : xs = [] := List.reverse_eq_nil_iff.mp h
    simp [this, rotL1, rotR1]
  · have hx : xs = t.reverse ++ [y] := by
      have := congrArg List.reverse h
      simpa using this
    subst hx
    simp [rotR1, rotL1, List.reverse_append]

theorem rotL1_perm (xs : List T) : (rotL1 xs).Perm xs := by
  cases xs with
  | nil => simp [rotL1]
  | cons x t =>
    show (t ++ [x]).Perm (x :: t)
    exact List.perm_append_singleton x t

theorem rotR1_perm (xs : List T) : (rotR1 xs).Perm xs :=
  ((List.reverse_perm (rotL1 xs.reverse)).trans (rotL1_perm xs.reverse)).trans
    (List.reverse_perm xs)

theorem rotR1_getElem?_zero (t : List T) (z : T) : (rotR1 (t ++ [z]))[0]? = some z := by
  simp [rotR1, rotL1, List.reverse_append]

theorem rotL1_getElem?_last (x : T) (t : List T) :
    (rotL1 (x :: t))[t.length]? = some x := by
  show (t ++ [x])[t.length]? = some x
  exact List.getElem?_concat_length t x

theorem getElem?_some_lt {xs : List T} {i : Nat} {x : T} (h : xs[i]? = some x) :
    i < xs.length := by
  by_contra hlt
  rw [List.getElem?_eq_none (Nat.le_of_not_lt hlt)] at h
  exact Option.noConfusion h

/-- Every list is `[]` or ends in a last element. -/
theorem eq_nil_or_ends (xs : List T) : xs = [] ∨ ∃ t z, xs = t ++ [z] := by
  rcases h : xs.reverse with _ | ⟨y, t⟩
  · left
    exact List.reverse_eq_nil_iff.mp h
  · right
    refine ⟨t.reverse, y, ?_⟩
    have := congrArg List.reverse h
    simpa using this

theorem swapChecked_eq {xs : List T} {i j : Nat} {a b : T}
    (hi : xs[i]? = some a) (hj : xs[j]? = some b) :
    swapChecked xs i j = some ((xs.set i b).set j a) := by
  simp [swapChecked, hi, hj]

/-- Replacing the element at a valid position and re-consing it is a
permutation: `b :: t.set m x ~ x :: t` when `t[m]? = some b`. -/
theorem cons_set_perm (t : List T) (m : Nat) (b x : T) (h : t[m]? = some b) :
    (b :: t.set m x).Perm (x :: t) := by
  induction t generalizing m with
  | nil => simp at h
  | cons c u ih =>
    cases m with
    | zero =>
      rw [List.getElem?_cons_zero] at h
      cases h
      simpa [List.set] using List.Perm.swap x b u
    | succ k =>
      rw [List.getElem?_cons_succ] at h
      have h1 : (b :: c :: u.set k x).Perm (c :: b :: u.set k x) := List.Perm.swap c b _
      have h2 : (c :: b :: u.set k x).Perm (c :: x :: u) := List.Perm.cons c (ih k h)
      have h3 : (c :: x :: u).Perm (x :: c :: u) := List.Perm.swap x c u
      exact (h1.trans h2).trans h3

/-- A two-position exchange is a permutation. -/
theorem set_set_swap_perm (xs : List T) (i j : Nat) (a b : T)
    (hi : xs[i]? = some a) (hj : xs[j]? = some b) :
    ((xs.set i b).set j a).Perm xs := by
  induction xs generalizing i j with
  | nil => simp at hi
  | cons x t ih =>
    cases i with
    | zero =>
      rw [List.getElem?_cons_zero] at hi
      cases hi
      cases j with
      | zero =>
        rw [List.getElem?_cons_zero] at hj
        cases hj
        simp [List.set]
      | succ m =>
        rw [List.getElem?_cons_succ] at hj
        simpa [List.set] using cons_set_perm t m b a hj
    | succ n =>
      cases j with
      | zero =>
        rw [List.getElem?_cons_zero] at hj
        cases hj
        rw [List.getElem?_cons_succ] at hi
        simpa [List.set] using cons_set_perm t n a b hi
      | succ m =>
        rw [List.getElem?_cons_succ] at hi
        rw [List.getElem?_cons_succ] at hj
        simpa [List.set] using List.Perm.cons x (ih n m hi hj)

theorem elementBy_some {r : Ring T} {f : T → Bool} {i : Nat} {x : T}
    (h : r.elementBy f = some (i, x)) : r.elements[i]? = some x ∧ f x = true := by
  constructor
  · have hmem : (i, x) ∈ r.elements.enum := List.mem_of_find?_eq_some h
    exact List.mk_mem_enum_iff_getElem?.mp hmem
  · simpa using List.find?_some h

/-! ## Specification-side helper functions

These are used only to state theorems about the source functions above. -/

/-- The clamp rule of `clamp_focus`, as a pure function of the focus index
and the (current) element count `n`: decrement when `focused > 0` and
`focused ≥ n - 1`. -/
def clampedIdx (f n : Nat) : Nat :=
  if 0 < f ∧ n ≤ f + 1 then f - 1 else f

/-- The index `remove` targets for a given selector, when it matches one. -/
def removeTarget (r : Ring T) (s : Selector T) : Option Nat :=
  match s with
  | Selector.WinId _ => none
  | Selector.Focused => if r.focused < r.elements.length then some r.focused else none
  | Selector.Index i => if i < r.elements.length then some i else none
  | Selector.Condition f => (r.elementBy f).map Prod.fst

/-! ## Operational lemmas -/

theorem getElem?_isSome_iff {xs : List T} {i : Nat} : xs[i]?.isSome = true ↔ i < xs.length := by
  constructor
  · intro h
    rcases hx : xs[i]? with _ | x
    · rw [hx] at h
      cases h
    · exact getElem?_some_lt hx
  · intro h
    rw [List.getElem?_eq_getElem h]
    rfl

theorem insertAt_length (n : Nat) (x : T) (xs : List T) :
    (insertAt n x xs).length = xs.length + 1 := by
  induction xs generalizing n with
  | nil => cases n <;> rfl
  | cons y ys ih =>
    cases n with
    | zero => rfl
    | succ k => simp [insertAt, ih]

theorem clampedIdx_pos (f m : Nat) (hf : 0 < f) :
    clampedIdx f (m + 1) = if m ≤ f then f - 1 else f := by
  unfold clampedIdx
  by_cases h : m ≤ f
  · rw [if_pos h, if_pos ⟨hf, by omega⟩]
  · rw [if_neg h, if_neg (fun hc => h (by omega))]

theorem clampedIdx_inv (f n : Nat) (hle : f ≤ n) :
    clampedIdx f n < n ∨ (n = 0 ∧ clampedIdx f n = 0) := by
  unfold clampedIdx
  split_ifs <;> omega

theorem clampFocus_eq (r : Ring T) (h0 : r.elements.length = 0 → r.focused = 0) :
    r.clampFocus = some { r with focused := clampedIdx r.focused r.elements.length } := by
  rcases r with ⟨xs, f⟩
  simp only at h0
  by_cases hf : 0 < f
  · have hxs : xs.length ≠ 0 := fun hh => absurd (h0 hh) (by omega)
    obtain ⟨m, hm⟩ := Nat.exists_eq_succ_of_ne_zero hxs
    simp only [Ring.clampFocus, hm]
    rw [if_pos hf, checkedSub_succ_one]
    simp only [Option.map_some']
    rw [clampedIdx_pos f m hf]
    by_cases hmf : m ≤ f
    · rw [if_pos hmf, if_pos hmf]
    · rw [if_neg hmf, if_neg hmf]
  · have hf0 : f = 0 := by omega
    subst hf0
    simp [Ring.clampFocus, clampedIdx]

theorem vecRemove_some {xs : List T} {i : Nat} {a : T} (h : xs[i]? = some a) :
    vecRemove xs i = (xs.eraseIdx i, some a) := by
  simp [vecRemove, h]

theorem vecRemove_none {xs : List T} {i : Nat} (h : xs[i]? = none) :
    vecRemove xs i = (xs, none) := by
  simp [vecRemove, h]

theorem rotate_focused (r : Ring T) (d : Direction) : (r.rotate d).focused = r.focused := by
  cases d <;> simp only [Ring.rotate] <;> split <;> rfl

theorem rotate_forward_nonempty (r : Ring T) (h : r.elements ≠ []) :
    r.rotate Direction.Forward = { r with elements := rotR1 r.elements } := by
  rcases r with ⟨xs, f⟩
  cases xs with
  | nil => exact absurd rfl h
  | cons x t => simp [Ring.rotate]

theorem rotate_backward_nonempty (r : Ring T) (h : r.elements ≠ []) :
    r.rotate Direction.Backward = { r with elements := rotL1 r.elements } := by
  rcases r with ⟨xs, f⟩
  cases xs with
  | nil => exact absurd rfl h
  | cons x t => simp [Ring.rotate]

theorem rotate_length (r : Ring T) (d : Direction) :
    (r.rotate d).elements.length = r.elements.length := by
  rcases r with ⟨xs, f⟩
  cases xs with
  | nil => cases d <;> rfl
  | cons x t =>
    cases d
    · rw [rotate_forward_nonempty _ (by simp)]
      simpa using rotR1_length (x :: t)
    · rw [rotate_backward_nonempty _ (by simp)]
      simpa using rotL1_length (x :: t)

theorem nextIndex_forward (xs : List T) (f m : Nat) (hm : xs.length = m + 1) :
    (Ring.mk xs f).nextIndex Direction.Forward = some (if f = m then 0 else f + 1) := by
  simp only [Ring.nextIndex, hm]
  rw [checkedSub_succ_one]
  rfl

theorem nextIndex_backward (xs : List T) (f m : Nat) (hm : xs.length = m + 1) :
    (Ring.mk xs f).nextIndex Direction.Backward = some (if f = 0 then m else f - 1) := by
  simp only [Ring.nextIndex, hm]
  rw [checkedSub_succ_one]
  rfl

theorem cycleFocus_of_next {r : Ring T} {d : Direction} {i : Nat}
    (hi : r.nextIndex d = some i) :
    r.cycleFocus d = some ({ r with focused := i }, r.elements[i]?) := by
  simp [Ring.cycleFocus, hi, Ring.focusedElem]

theorem dragStep_forward_zero (r : Ring T) :
    r.dragStep 0 Direction.Forward = some (r.rotate Direction.Forward) := by
  rcases r with ⟨xs, f⟩
  cases f <;> rfl

theorem dragStep_forward_succ (r : Ring T) (k : Nat) :
    r.dragStep (k + 1) Direction.Forward =
      (swapChecked r.elements r.focused (k + 1)).map
        (fun es => { r with elements := es }) := by
  rcases r with ⟨xs, f⟩
  cases f <;> rfl

theorem dragStep_backward_zero (r : Ring T) (h : r.focused = 0) (nxt : Nat) :
    r.dragStep nxt Direction.Backward = some (r.rotate Direction.Backward) := by
  rcases r with ⟨xs, f⟩
  simp only at h
  subst h
  cases nxt <;> rfl

theorem dragStep_backward_succ (r : Ring T) (k nxt : Nat) (h : r.focused = k + 1) :
    r.dragStep nxt Direction.Backward =
      (swapChecked r.elements (k + 1) nxt).map
        (fun es => { r with elements := es }) := by
  rcases r with ⟨xs, f⟩
  simp only at h
  subst h
  cases nxt <;> rfl

/-- Full behaviour of `drag_focused` on a well-formed non-empty ring: it
returns the element that was focused beforehand, that element is focused
afterwards, and the sequence is only permuted. -/
theorem dragMaster (r : Ring T) (d : Direction) (h : r.focused < r.elements.length) :
    ∃ r', r.dragFocused d = some (r', r.focusedElem) ∧
      r'.focusedElem = r.focusedElem ∧
      r'.elements.Perm r.elements ∧
      r'.elements.length = r.elements.length := by
  rcases r with ⟨xs, f⟩
  simp only [Ring.focusedElem] at h ⊢
  obtain ⟨m, hm⟩ := Nat.exists_eq_succ_of_ne_zero (show xs.length ≠ 0 by omega)
  cases d with
  | Forward =>
    have hnext := nextIndex_forward xs f m hm
    by_cases hf : f = m
    · -- dragging the last element forward: full rotation
      subst hf
      rw [if_pos rfl] at hnext
      rcases eq_nil_or_ends xs with hnil | ⟨t, z, hts⟩
      · rw [hnil] at hm
        simp at hm
      subst hts
      have hmt : t.length = f := by
        have h2 : t.length + 1 = f + 1 := by simpa using hm
        omega
      have hrot : (Ring.mk (t ++ [z]) f).rotate Direction.Forward =
          Ring.mk (rotR1 (t ++ [z])) f := rotate_forward_nonempty _ (by simp)
      have hlen2 : (rotR1 (t ++ [z])).length = f + 1 := by
        rw [rotR1_length]
        exact hm
      have hn2 : (Ring.mk (rotR1 (t ++ [z])) f).nextIndex Direction.Forward = some 0 := by
        rw [nextIndex_forward _ _ _ hlen2, if_pos rfl]
      have hcyc := cycleFocus_of_next hn2
      have hz : (rotR1 (t ++ [z]))[0]? = some z := rotR1_getElem?_zero t z
      have hxf : (t ++ [z])[f]? = some z := by
        rw [← hmt]
        exact List.getElem?_concat_length t z
      refine ⟨Ring.mk (rotR1 (t ++ [z])) 0, ?_, ?_, ?_, ?_⟩
      · simp only [Ring.dragFocused, hnext, Option.some_bind, dragStep_forward_zero, hrot,
          hcyc, hz, hxf]
      · simp only [Ring.focusedElem, hz, hxf]
      · show (rotR1 (t ++ [z])).Perm (t ++ [z])
        exact rotR1_perm _
      · show (rotR1 (t ++ [z])).length = (t ++ [z]).length
        rw [rotR1_length]
    · -- interior forward drag: adjacent swap
      rw [if_neg hf] at hnext
      have hf1 : f + 1 < xs.length := by omega
      obtain ⟨a, ha⟩ : ∃ a, xs[f]? = some a := ⟨_, List.getElem?_eq_getElem h⟩
      obtain ⟨b, hb⟩ : ∃ b, xs[f + 1]? = some b := ⟨_, List.getElem?_eq_getElem hf1⟩
      have hswap := swapChecked_eq ha hb
      have hylen : ((xs.set f b).set (f + 1) a).length = m + 1 := by
        simpa using hm
      have hn2 : (Ring.mk ((xs.set f b).set (f + 1) a) f).nextIndex Direction.Forward =
          some (f + 1) := by
        rw [nextIndex_forward _ _ _ hylen, if_neg hf]
      have hcyc := cycleFocus_of_next hn2
      have hy : ((xs.set f b).set (f + 1) a)[f + 1]? = some a := by
        apply List.getElem?_set_eq_of_lt
        simpa using hf1
      refine ⟨Ring.mk ((xs.set f b).set (f + 1) a) (f + 1), ?_, ?_, ?_, ?_⟩
      · simp only [Ring.dragFocused, hnext, Option.some_bind, dragStep_forward_succ, hswap,
          Option.map_some', Option.some_bind, hcyc, hy, ha]
      · simp only [Ring.focusedElem, hy, ha]
      · show ((xs.set f b).set (f + 1) a).Perm xs
        exact set_set_swap_perm xs f (f + 1) a b ha hb
      · simp
  | Backward =>
    have hnext := nextIndex_backward xs f m hm
    by_cases hf : f = 0
    · -- dragging the first element backward: full rotation
      subst hf
      rw [if_pos rfl] at hnext
      cases xs with
      | nil => simp at hm
      | cons x t =>
        have hmt : t.length = m := by
          have h2 : t.length + 1 = m + 1 := by simpa using hm
          omega
        have hrot : (Ring.mk (x :: t) 0).rotate Direction.Backward =
            Ring.mk (rotL1 (x :: t)) 0 := rotate_backward_nonempty _ (by simp)
        have hlen2 : (rotL1 (x :: t)).length = m + 1 := by
          rw [rotL1_length]
          exact hm
        have hn2 : (Ring.mk (rotL1 (x :: t)) 0).nextIndex Direction.Backward = some m := by
          rw [nextIndex_backward _ _ _ hlen2, if_pos rfl]
        have hcyc := cycleFocus_of_next hn2
        have hx : (rotL1 (x :: t))[m]? = some x := by
          rw [← hmt]
          exact rotL1_getElem?_last x t
        have hx0 : (x :: t)[0]? = some x := by simp
        refine ⟨Ring.mk (rotL1 (x :: t)) m, ?_, ?_, ?_, ?_⟩
        · simp only [Ring.dragFocused, hnext, Option.some_bind,
            dragStep_backward_zero (Ring.mk (x :: t) 0) rfl m, hrot, hcyc, hx, hx0]
        · simp only [Ring.focusedElem, hx, hx0]
        · show (rotL1 (x :: t)).Perm (x :: t)
          exact rotL1_perm _
        · show (rotL1 (x :: t)).length = (x :: t).length
          rw [rotL1_length]
    · -- interior backward drag: adjacent swap
      obtain ⟨k, hk⟩ := Nat.exists_eq_succ_of_ne_zero hf
      subst hk
      rw [if_neg hf] at hnext
      have hnext2 : (Ring.mk xs (k + 1)).nextIndex Direction.Backward = some k := by
        simpa using hnext
      have hkl : k < xs.length := by omega
      obtain ⟨a, ha⟩ : ∃ a, xs[k + 1]? = some a := ⟨_, List.getElem?_eq_getElem h⟩
      obtain ⟨b, hb⟩ : ∃ b, xs[k]? = some b := ⟨_, List.getElem?_eq_getElem hkl⟩
      have hswap := swapChecked_eq ha hb
      have hylen : ((xs.set (k + 1) b).set k a).length = m + 1 := by
        simpa using hm
      have hn2 : (Ring.mk ((xs.set (k + 1) b).set k a) (k + 1)).nextIndex Direction.Backward =
          some k := by
        rw [nextIndex_backward _ _ _ hylen, if_neg (Nat.succ_ne_zero k)]
        simp
      have hcyc := cycleFocus_of_next hn2
      have hy : ((xs.set (k + 1) b).set k a)[k]? = some a := by
        apply List.getElem?_set_eq_of_lt
        simpa using hkl
      refine ⟨Ring.mk ((xs.set (k + 1) b).set k a) k, ?_, ?_, ?_, ?_⟩
      · simp only [Ring.dragFocused, hnext2, Option.some_bind,
          dragStep_backward_succ (Ring.mk xs (k + 1)) k k rfl, hswap,
          Option.map_some', Option.some_bind, hcyc, hy, ha]
      · simp only [Ring.focusedElem, hy, ha]
      · show ((xs.set (k + 1) b).set k a).Perm xs
        exact set_set_swap_perm xs (k + 1) k a b ha hb
      · simp

theorem Inv_def (r : Ring T) :
    r.Inv ↔ (r.focused < r.elements.length ∨ (r.elements.length = 0 ∧ r.focused = 0)) :=
  Iff.rfl

theorem clampFocus_inv (r : Ring T) (hle : r.focused ≤ r.elements.length)
    (h0 : r.elements.length = 0 → r.focused = 0) :
    ∃ r2, r.clampFocus = some r2 ∧ r2.elements = r.elements ∧ r2.Inv := by
  refine ⟨_, clampFocus_eq r h0, rfl, ?_⟩
  rw [Inv_def]
  exact clampedIdx_inv r.focused r.elements.length hle

theorem eraseIdx_length_lt {xs : List T} {j : Nat} (hj : j < xs.length) :
    (xs.eraseIdx j).length = xs.length - 1 := by
  rw [List.length_eraseIdx]
  simp [hj]

/-- `remove` never panics on a well-formed ring, yields a well-formed ring,
and at most erases one (in-range) position of the sequence. -/
theorem remove_spec (r : Ring T) (s : Selector T) (hInv : r.Inv) :
    ∃ r2 x, r.remove s = some (r2, x) ∧ r2.Inv ∧
      (r2.elements = r.elements ∨
        ∃ j, j < r.elements.length ∧ r2.elements = r.elements.eraseIdx j) := by
  have hle : r.focused ≤ r.elements.length := by
    rcases (Inv_def r).mp hInv with h | ⟨h0, hf0⟩
    · omega
    · omega
  rcases s with _ | i | w | f
  · -- Focused
    rcases hx : r.elements[r.focused]? with _ | a
    · have hrem : vecRemove r.elements r.focused = (r.elements, none) := vecRemove_none hx
      obtain ⟨r2, hc, he, hi⟩ := clampFocus_inv r hle (by
        intro hz
        rcases (Inv_def r).mp hInv with h | ⟨h0, hf0⟩
        · omega
        · exact hf0)
      refine ⟨r2, none, ?_, hi, Or.inl he⟩
      simp only [Ring.remove, hrem]
      rw [show ({ r with elements := r.elements } : Ring T) = r from rfl, hc]
      rfl
    · have hjl : r.focused < r.elements.length := getElem?_some_lt hx
      have hrem : vecRemove r.elements r.focused = (r.elements.eraseIdx r.focused, some a) :=
        vecRemove_some hx
      have hlen' : (r.elements.eraseIdx r.focused).length = r.elements.length - 1 :=
        eraseIdx_length_lt hjl
      obtain ⟨r2, hc, he, hi⟩ :=
        clampFocus_inv { r with elements := r.elements.eraseIdx r.focused }
          (by simp only [hlen']; omega)
          (by simp only [hlen']; omega)
      refine ⟨r2, some a, ?_, hi, Or.inr ⟨r.focused, hjl, by simpa using he⟩⟩
      simp only [Ring.remove, hrem, hc]
      rfl
  · -- Index i
    rcases hx : r.elements[i]? with _ | a
    · have hrem : vecRemove r.elements i = (r.elements, none) := vecRemove_none hx
      obtain ⟨r2, hc, he, hi⟩ := clampFocus_inv r hle (by
        intro hz
        rcases (Inv_def r).mp hInv with h | ⟨h0, hf0⟩
        · omega
        · exact hf0)
      refine ⟨r2, none, ?_, hi, Or.inl he⟩
      simp only [Ring.remove, hrem]
      rw [show ({ r with elements := r.elements } : Ring T) = r from rfl, hc]
      rfl
    · have hjl : i < r.elements.length := getElem?_some_lt hx
      have hflt : r.focused < r.elements.length := by
        rcases (Inv_def r).mp hInv with hh | ⟨h0, hf0⟩
        · exact hh
        · omega
      have hrem : vecRemove r.elements i = (r.elements.eraseIdx i, some a) :=
        vecRemove_some hx
      have hlen' : (r.elements.eraseIdx i).length = r.elements.length - 1 :=
        eraseIdx_length_lt hjl
      obtain ⟨r2, hc, he, hi⟩ :=
        clampFocus_inv { r with elements := r.elements.eraseIdx i }
          (by simp only [hlen']; omega)
          (by simp only [hlen']; omega)
      refine ⟨r2, some a, ?_, hi, Or.inr ⟨i, hjl, by simpa using he⟩⟩
      simp only [Ring.remove, hrem, hc]
      rfl
  · -- WinId
    exact ⟨r, none, rfl, hInv, Or.inl rfl⟩
  · -- Condition
    rcases hfind : r.elementBy f with _ | ⟨i, x⟩
    · exact ⟨r, none, by simp only [Ring.remove, hfind], hInv, Or.inl rfl⟩
    · have hx : r.elements[i]? = some x := (elementBy_some hfind).1
      have hjl : i < r.elements.length := getElem?_some_lt hx
      have hflt : r.focused < r.elements.length := by
        rcases (Inv_def r).mp hInv with hh | ⟨h0, hf0⟩
        · exact hh
        · omega
      have hrem : vecRemove r.elements i = (r.elements.eraseIdx i, some x) :=
        vecRemove_some hx
      have hlen' : (r.elements.eraseIdx i).length = r.elements.length - 1 :=
        eraseIdx_length_lt hjl
      obtain ⟨r2, hc, he, hi⟩ :=
        clampFocus_inv { r with elements := r.elements.eraseIdx i }
          (by simp only [hlen']; omega)
          (by simp only [hlen']; omega)
      refine ⟨r2, some x, ?_, hi, Or.inr ⟨i, hjl, by simpa using he⟩⟩
      simp only [Ring.remove, hfind, hrem, hc]
      rfl

theorem nextIndex_some_lt {r : Ring T} {d : Direction} {i : Nat}
    (hInv : r.Inv) (hn : r.nextIndex d = some i) : i < r.elements.length := by
  rcases hlen : r.elements.length with _ | m
  · rw [Ring.nextIndex, hlen, checkedSub_zero_one] at hn
    cases hn
  · have hf : r.focused < m + 1 := by
      rcases (Inv_def r).mp hInv with h | ⟨h0, hf0⟩
      · omega
      · omega
    cases d with
    | Forward =>
      rw [nextIndex_forward r.elements r.focused m hlen] at hn
      by_cases he : r.focused = m
      · rw [if_pos he] at hn
        cases hn
        omega
      · rw [if_neg he] at hn
        cases hn
        omega
    | Backward =>
      rw [nextIndex_backward r.elements r.focused m hlen] at hn
      by_cases he : r.focused = 0
      · rw [if_pos he] at hn
        cases hn
        omega
      · rw [if_neg he] at hn
        cases hn
        omega

theorem applyOp_inv {r r2 : Ring T} {op : Op T} (hInv : r.Inv) (hs : SafeOp r op)
    (h : applyOp r op = some r2) : r2.Inv := by
  cases op with
  | rotate d =>
    cases h
    rw [Inv_def, rotate_length, rotate_focused]
    exact (Inv_def r).mp hInv
  | cycleFocus d =>
    rcases Option.map_eq_some'.mp h with ⟨⟨r', x⟩, hc, rfl⟩
    rcases Option.map_eq_some'.mp hc with ⟨i, hn, hpair⟩
    have hlt := nextIndex_some_lt hInv hn
    cases hpair
    exact Or.inl hlt
  | dragFocused d =>
    have hflt : r.focused < r.elements.length := by
      rcases (Inv_def r).mp hInv with hh | ⟨h0, hf0⟩
      · exact hh
      · exfalso
        rw [applyOp, Ring.dragFocused, Ring.nextIndex, h0, checkedSub_zero_one] at h
        cases h
    obtain ⟨r', hdrag, hfe, hperm, hlen⟩ := dragMaster r d hflt
    rw [applyOp, hdrag] at h
    cases h
    have : r.focusedElem = r.elements[r.focused]? := rfl
    rw [this, List.getElem?_eq_getElem hflt] at hfe
    exact Or.inl (by
      have := getElem?_some_lt hfe
      exact this)
  | insert i x =>
    rw [applyOp, Ring.insert] at h
    by_cases hle : i ≤ r.elements.length
    · rw [if_pos hle] at h
      cases h
      rw [Inv_def]
      simp only [insertAt_length]
      rcases (Inv_def r).mp hInv with hh | ⟨h0, hf0⟩
      · omega
      · omega
    · rw [if_neg hle] at h
      cases h
  | element s =>
    cases h
    exact hInv
  | focus s =>
    cases s with
    | Focused =>
      cases h
      exact hInv
    | WinId w =>
      cases h
      exact hInv
    | Index i =>
      cases h
      exact Or.inl hs
    | Condition f =>
      rcases hfind : r.elementBy f with _ | ⟨i, x⟩
      · rw [applyOp] at h
        simp only [Ring.focus, hfind] at h
        cases h
        exact hInv
      · rw [applyOp] at h
        simp only [Ring.focus, hfind] at h
        cases h
        exact Or.inl (getElem?_some_lt (elementBy_some hfind).1)
  | remove s =>
    obtain ⟨r2', x, hrm, hi, _⟩ := remove_spec r s hInv
    rw [applyOp, hrm] at h
    cases h
    exact hi

theorem reaches_inv {r r' : Ring T} (h : Reaches r r') (hInv : r.Inv) : r'.Inv := by
  induction h with
  | refl => exact hInv
  | step hr hs happ ih => exact applyOp_inv ih hs happ


-- Sanity checks mirroring the repository's unit tests.

theorem sanityRotate :
    ((Ring.new [1, 2, 3]).rotate Direction.Forward).elements = [3, 1, 2] ∧
    (((Ring.new [1, 2, 3]).rotate Direction.Forward).rotate Direction.Backward).elements
      = [1, 2, 3] := by
  decide

theorem sanityDragForward :
    ((Ring.new [1, 2, 3, 4]).dragFocused Direction.Forward).map
      (fun p => (p.1.elements, p.1.focused, p.2)) = some ([2, 1, 3, 4], 1, some 1) := by
  decide

theorem sanityDragBackward :
    ((Ring.new [1, 2, 3, 4]).dragFocused Direction.Backward).map
      (fun p => (p.1.elements, p.1.focused, p.2)) = some ([2, 3, 4, 1], 3, some 1) := by
  decide

theorem sanityRemoveFocused :
    (({ elements := [1, 2, 3], focused := 2 } : Ring Nat).remove Selector.Focused).map
      (fun p => (p.1.elements, p.1.focused, p.2)) = some ([1, 2], 1, some 3) := by
  decide

theorem sanityRemoveBy :
    (({ elements := [1, 2, 3, 4, 5, 6], focused := 3 } : Ring Nat).remove
        (Selector.Condition (fun e => e % 2 == 0))).map
      (fun p => (p.1.elements, p.1.focused, p.2)) =
      some ([1, 3, 4, 5, 6], 3, some 2) ∧
    (({ elements := [1, 2, 3, 4, 5, 6], focused := 3 } : Ring Nat).remove
        (Selector.Condition (fun e => e % 2 == 0))).bind (fun p => p.1.focusedElem) = some 5 := by
  decide

theorem sanityCycle :
    ((Ring.new [1, 2, 3]).cycleFocus Direction.Forward).map (fun p => p.2) = some (some 2) ∧
    ((Ring.new [1, 2, 3]).cycleFocus Direction.Backward).map (fun p => p.2) = some (some 3) := by
  decide

/-! ## Claims -/

/-- Claim C1 (amended): starting from a non-empty ring, any sequence of
non-panicking operations in which `focus` is never given an out-of-range
`Index` selector keeps `focused_index` strictly below `len` whenever the ring
is non-empty.  (As literally stated the claim is false: see the
counterexample, where `focus(Index(10))` stores an out-of-range focus.) -/
theorem claim1_focus_invariant {T : Type} (init : List T) (r' : Ring T)
    (hne : init ≠ []) (hr : Reaches (Ring.new init) r')
    (hne' : r'.elements ≠ []) : r'.focused < r'.elements.length := by
  have hInv0 : (Ring.new init).Inv := by
    cases init with
    | nil => exact Or.inr ⟨rfl, rfl⟩
    | cons x t => exact Or.inl (by simp [Ring.new])
  rcases (Inv_def r').mp (reaches_inv hr hInv0) with h | ⟨h0, _⟩
  · exact h
  · exact absurd (List.length_eq_zero.mp h0) hne'

/-- Claim C1 witness: the amended invariant at a concrete reachable state
(one `cycle_focus` step from `Ring::new([1,2,3])`). -/
theorem claim1_witness :
    ({ elements := [1, 2, 3], focused := 1 } : Ring Nat).focused <
      ({ elements := [1, 2, 3], focused := 1 } : Ring Nat).elements.length :=
  claim1_focus_invariant [1, 2, 3] { elements := [1, 2, 3], focused := 1 } (by decide)
    (@Reaches.step Nat (Ring.new [1, 2, 3]) (Ring.new [1, 2, 3])
      { elements := [1, 2, 3], focused := 1 } (Op.cycleFocus Direction.Forward)
      (Reaches.refl _) trivial (by decide))
    (by decide)

/-- Claim C1 counterexample: `focus(Index(10))` on a 3-element ring is one of
the operations the claim quantifies over, leaves the ring non-empty, and
stores `focused_index = 10 ≥ 3`. -/
theorem claim1_counterexample :
    applyOps (Ring.new [1, 2, 3]) [Op.focus (Selector.Index 10)] =
      some { elements := [1, 2, 3], focused := 10 } ∧
    ¬ (({ elements := [1, 2, 3], focused := 10 } : Ring Nat).focused <
        ({ elements := [1, 2, 3], focused := 10 } : Ring Nat).elements.length) := by
  decide

/-- Claim C2 (amended): on a well-formed ring, `remove` with a matching
selector deletes exactly the matched element and returns it; the new focus is
`focused - 1` exactly when `focused > 0` and `focused ≥ new_length - 1`
(`clampedIdx`), not `focused ≥ new_length` as the claim stated — so removing
the last element while focused at the second-to-last position also
decrements the focus. -/
theorem claim2_remove_clamp {T : Type} (r : Ring T) (s : Selector T) (i : Nat)
    (hInv : r.Inv) (htgt : removeTarget r s = some i) :
    r.remove s =
      some ({ elements := r.elements.eraseIdx i,
              focused := clampedIdx r.focused (r.elements.length - 1) },
            r.elements[i]?) := by
  rcases r with ⟨xs, f⟩
  rcases s with _ | j | w | g
  · -- Focused
    simp only [removeTarget] at htgt
    split_ifs at htgt with h1
    obtain rfl : f = i := Option.some.inj htgt
    obtain ⟨a, ha⟩ : ∃ a, xs[f]? = some a := ⟨_, List.getElem?_eq_getElem h1⟩
    have hrem := vecRemove_some ha
    have hclamp := clampFocus_eq (Ring.mk (xs.eraseIdx f) f) (by
      simp only [eraseIdx_length_lt h1]
      omega)
    simp only [Ring.remove, hrem, hclamp, Option.map_some', eraseIdx_length_lt h1, ha]
  · -- Index
    simp only [removeTarget] at htgt
    split_ifs at htgt with h1
    obtain rfl : j = i := Option.some.inj htgt
    have hfl : f < xs.length := by
      have hInv2 := (Inv_def (Ring.mk xs f)).mp hInv
      simp only at hInv2
      rcases hInv2 with hh | ⟨hz, hf0⟩
      · exact hh
      · omega
    obtain ⟨a, ha⟩ : ∃ a, xs[j]? = some a := ⟨_, List.getElem?_eq_getElem h1⟩
    have hrem := vecRemove_some ha
    have hclamp := clampFocus_eq (Ring.mk (xs.eraseIdx j) f) (by
      simp only [eraseIdx_length_lt h1]
      omega)
    simp only [Ring.remove, hrem, hclamp, Option.map_some', eraseIdx_length_lt h1, ha]
  · -- WinId
    simp [removeTarget] at htgt
  · -- Condition
    rcases hfind : (Ring.mk xs f).elementBy g with _ | ⟨i', x⟩
    · rw [removeTarget, hfind] at htgt
      cases htgt
    · rw [removeTarget, hfind] at htgt
      simp only [Option.map_some'] at htgt
      obtain rfl : i' = i := Option.some.inj htgt
      have ha : xs[i']? = some x := (elementBy_some hfind).1
      have h1 : i' < xs.length := getElem?_some_lt ha
      have hfl : f < xs.length := by
        have hInv2 := (Inv_def (Ring.mk xs f)).mp hInv
        simp only at hInv2
        rcases hInv2 with hh | ⟨hz, hf0⟩
        · exact hh
        · omega
      have hrem := vecRemove_some ha
      have hclamp := clampFocus_eq (Ring.mk (xs.eraseIdx i') f) (by
        simp only [eraseIdx_length_lt h1]
        omega)
      simp only [Ring.remove, hfind, hrem, hclamp, Option.map_some',
        eraseIdx_length_lt h1, ha]

/-- Claim C2 witness: the claim's own example — removing the focused element
of a 3-element ring focused at the last index leaves a 2-element ring focused
at index `length - 2 = 1`. -/
theorem claim2_witness :
    ({ elements := [1, 2, 3], focused := 2 } : Ring Nat).remove Selector.Focused =
      some ({ elements := [1, 2], focused := 1 }, some 3) :=
  claim2_remove_clamp { elements := [1, 2, 3], focused := 2 } Selector.Focused 2
    (by decide) (by decide)

/-- Claim C2 counterexample: removing the element strictly after the focus
(`Index(2)` with `focused = 1` on a 3-element ring) changes the focus from 1
to 0, although the claim says it is left unchanged (and `1 < 2`, the new
length, so the claim's stated decrement condition does not hold either). -/
theorem claim2_counterexample :
    ({ elements := [1, 2, 3], focused := 1 } : Ring Nat).remove (Selector.Index 2) =
      some ({ elements := [1, 2], focused := 0 }, some 3) ∧ (0 : Nat) ≠ 1 := by
  decide

/-- Claim C3 (amended): `focus` returns nothing on no match; `focused` is
unchanged for a `Condition` with no match and for `WinId`; on a match it sets
`focused` to the matched index and returns the element — but `focus(Index(i))`
with an out-of-range `i` still stores `i` into `focused` while returning
nothing (the claim said `focused` was left unchanged in that case too). -/
theorem claim3_focus_semantics {T : Type} (r : Ring T) (g : T → Bool) (w i : Nat) :
    (r.elementBy g = none → r.focus (Selector.Condition g) = (r, none)) ∧
    (r.focus (Selector.WinId w) = (r, none)) ∧
    (r.focus Selector.Focused = (r, r.focusedElem)) ∧
    (r.elements.length ≤ i →
      r.focus (Selector.Index i) = ({ r with focused := i }, none)) ∧
    (∀ x, r.elements[i]? = some x →
      r.focus (Selector.Index i) = ({ r with focused := i }, some x)) ∧
    (∀ x, r.elementBy g = some (i, x) →
      r.focus (Selector.Condition g) = ({ r with focused := i }, some x)) := by
  refine ⟨?_, rfl, rfl, ?_, ?_, ?_⟩
  · intro hnone
    simp only [Ring.focus, hnone]
  · intro hle
    simp only [Ring.focus, Ring.focusedElem, List.getElem?_eq_none hle]
  · intro x hx
    simp only [Ring.focus, Ring.focusedElem, hx]
  · intro x hfind
    simp only [Ring.focus, hfind, (elementBy_some hfind).1]

/-- Claim C3 witness: the claim's own example — `focus(Condition(e % 7 == 0))`
on `[1..6]` returns nothing and leaves the state unchanged. -/
theorem claim3_witness :
    (Ring.new [1, 2, 3, 4, 5, 6] : Ring Nat).focus
        (Selector.Condition (fun e => e % 7 == 0)) =
      (Ring.new [1, 2, 3, 4, 5, 6], none) :=
  (claim3_focus_semantics (Ring.new [1, 2, 3, 4, 5, 6] : Ring Nat)
    (fun e => e % 7 == 0) 0 0).1 (by decide)

/-- Claim C3 counterexample: `focus(Index(10))` on a 3-element ring finds no
match (returns nothing) yet changes `focused_index` from 0 to 10. -/
theorem claim3_counterexample :
    (Ring.new [1, 2, 3] : Ring Nat).focus (Selector.Index 10) =
      ({ elements := [1, 2, 3], focused := 10 }, none) ∧ (10 : Nat) ≠ 0 := by
  decide

/-- Claim C4 (amended): on well-formed rings `remove` never panics for any
selector, and on non-empty well-formed rings `would_wrap`, `cycle_focus` and
`drag_focused` never panic; positional indexing is fatal exactly when the
index is out of range.  (As literally stated the claim is false: on the empty
ring `would_wrap` evaluates `len() - 1`, a fatal underflow, rather than
returning `false`, and out-of-range positional indexing panics rather than
degrading.) -/
theorem claim4_no_panic {T : Type} (r : Ring T) (hInv : r.Inv) :
    (∀ s : Selector T, (r.remove s).isSome = true) ∧
    (r.elements ≠ [] → ∀ d : Direction,
      (r.wouldWrap d).isSome = true ∧ (r.cycleFocus d).isSome = true ∧
      (r.dragFocused d).isSome = true) ∧
    (∀ i : Nat, (ringIndex r i).isSome = true ↔ i < r.elements.length) := by
  refine ⟨?_, ?_, ?_⟩
  · intro s
    obtain ⟨r2, x, hrm, _, _⟩ := remove_spec r s hInv
    rw [hrm]
    rfl
  · intro hne d
    obtain ⟨m, hm⟩ :=
      Nat.exists_eq_succ_of_ne_zero (fun hz => hne (List.length_eq_zero.mp hz))
    have hfl : r.focused < r.elements.length := by
      rcases (Inv_def r).mp hInv with hh | ⟨hz, hf0⟩
      · exact hh
      · exact absurd (List.length_eq_zero.mp hz) hne
    refine ⟨?_, ?_, ?_⟩
    · simp only [Ring.wouldWrap, hm, checkedSub_succ_one]
      rfl
    · simp only [Ring.cycleFocus, Ring.nextIndex, hm, checkedSub_succ_one]
      rfl
    · obtain ⟨r', hd, _, _, _⟩ := dragMaster r d hfl
      rw [hd]
      rfl
  · intro i
    exact getElem?_isSome_iff

/-- Claim C4 witness: the amended guarantees at a concrete well-formed
ring. -/
theorem claim4_witness :
    ((Ring.new [1, 2] : Ring Nat).remove (Selector.Index 7)).isSome = true ∧
    ((Ring.new [1, 2] : Ring Nat).wouldWrap Direction.Forward).isSome = true ∧
    ((ringIndex (Ring.new [1, 2] : Ring Nat) 5).isSome = true ↔
      5 < (Ring.new [1, 2] : Ring Nat).elements.length) := by
  have h := claim4_no_panic (Ring.new [1, 2] : Ring Nat) (by decide)
  exact ⟨h.1 (Selector.Index 7), (h.2.1 (by decide) Direction.Forward).1, h.2.2 5⟩

/-- Claim C4 counterexample: on the empty ring `would_wrap` hits the
`len() - 1` underflow (modelled as `none`) instead of returning `false`, and
positional indexing of the empty ring is fatal instead of a no-op. -/
theorem claim4_counterexample :
    (Ring.new ([] : List Nat)).wouldWrap Direction.Backward = none ∧
    ringIndex (Ring.new ([] : List Nat)) 0 = none := by
  decide

/-- Claim C5 (amended): a no-match `remove` removes nothing and returns
nothing, and leaves `focused` unchanged for `Condition` and `WinId`
selectors; but for a no-match `Focused` or `Index` selector the code still
runs `clamp_focus`, so `focused` drops by one whenever `focused > 0` and
`focused ≥ len() - 1` (the claim said `focused` is always unchanged). -/
theorem claim5_remove_no_match {T : Type} (r : Ring T) (g : T → Bool) (w i : Nat)
    (h0 : r.elements.length = 0 → r.focused = 0) :
    (r.elementBy g = none → r.remove (Selector.Condition g) = some (r, none)) ∧
    (r.remove (Selector.WinId w) = some (r, none)) ∧
    (r.elements.length ≤ i →
      r.remove (Selector.Index i) =
        some ({ r with focused := clampedIdx r.focused r.elements.length }, none)) ∧
    (r.elements.length ≤ r.focused →
      r.remove Selector.Focused =
        some ({ r with focused := clampedIdx r.focused r.elements.length }, none)) := by
  refine ⟨?_, rfl, ?_, ?_⟩
  · intro hnone
    simp only [Ring.remove, hnone]
  · intro hle
    have hrem := vecRemove_none (List.getElem?_eq_none hle)
    have hclamp := clampFocus_eq r h0
    simp only [Ring.remove, hrem, hclamp, Option.map_some']
  · intro hle
    have hrem := vecRemove_none (List.getElem?_eq_none hle)
    have hclamp := clampFocus_eq r h0
    simp only [Ring.remove, hrem, hclamp, Option.map_some']

/-- Claim C5 witness: the amended no-match behaviour at a concrete input —
`remove(Index(5))` on a 2-element ring focused at 1 removes nothing but
clamps the focus to 0. -/
theorem claim5_witness :
    ({ elements := [1, 2], focused := 1 } : Ring Nat).remove (Selector.Index 5) =
      some ({ elements := [1, 2], focused := 0 }, none) :=
  (claim5_remove_no_match ({ elements := [1, 2], focused := 1 } : Ring Nat)
    (fun e => e == 9) 0 5 (by decide)).2.2.1 (by decide)

/-- Claim C5 counterexample: `remove(Index(5))` on `[1,2]` focused at 1
matches nothing and removes nothing, yet `focused_index` changes from 1 to 0,
contradicting the claim that both the sequence and the focus are left
unchanged. -/
theorem claim5_counterexample :
    ({ elements := [1, 2], focused := 1 } : Ring Nat).remove (Selector.Index 5) =
      some ({ elements := [1, 2], focused := 0 }, none) ∧ (0 : Nat) ≠ 1 := by
  decide

/-- Claim C6: on a well-formed non-empty ring, `drag_focused` returns the
element that was focused immediately before the call, and that same element
is the focused element immediately after. -/
theorem claim6_drag_keeps_focus {T : Type} (r : Ring T) (d : Direction)
    (h : r.focused < r.elements.length) :
    ∃ r', r.dragFocused d = some (r', r.focusedElem) ∧
      r'.focusedElem = r.focusedElem := by
  obtain ⟨r', h1, h2, _, _⟩ := dragMaster r d h
  exact ⟨r', h1, h2⟩

/-- Claim C6 witness: the returned element of a concrete `drag_focused` call
equals the previously focused element. -/
theorem claim6_witness :
    ((Ring.new [1, 2, 3] : Ring Nat).dragFocused Direction.Forward).map Prod.snd =
      some ((Ring.new [1, 2, 3] : Ring Nat).focusedElem) := by
  obtain ⟨r', h1, h2⟩ :=
    claim6_drag_keeps_focus (Ring.new [1, 2, 3] : Ring Nat) Direction.Forward (by decide)
  rw [h1]
  rfl

/-- Claim C7: on a non-empty ring, `rotate(Forward)` then `rotate(Backward)`
restores the ring exactly (sequence and focus), and `rotate` never changes
the `focused` index value. -/
theorem claim7_rotate_inverse {T : Type} (r : Ring T) (d : Direction)
    (h : r.elements ≠ []) :
    (r.rotate Direction.Forward).rotate Direction.Backward = r ∧
    (r.rotate d).focusedIndex = r.focusedIndex := by
  constructor
  · have h1 := rotate_forward_nonempty r h
    rw [h1]
    have hne2 : ({ r with elements := rotR1 r.elements } : Ring T).elements ≠ [] := by
      intro hz
      apply h
      have hlen := congrArg List.length hz
      rw [rotR1_length] at hlen
      exact List.length_eq_zero.mp hlen
    rw [rotate_backward_nonempty _ hne2]
    rcases r with ⟨xs, f⟩
    simp [rotL1_rotR1]
  · show (r.rotate d).focused = r.focused
    exact rotate_focused r d

/-- Claim C7 witness: the rotation round trip at a concrete ring. -/
theorem claim7_witness :
    (((Ring.new [1, 2, 3] : Ring Nat).rotate Direction.Forward).rotate Direction.Backward =
      Ring.new [1, 2, 3]) ∧
    ((Ring.new [1, 2, 3] : Ring Nat).rotate Direction.Forward).focusedIndex =
      (Ring.new [1, 2, 3] : Ring Nat).focusedIndex :=
  claim7_rotate_inverse (Ring.new [1, 2, 3]) Direction.Forward (by decide)

/-- Claim C8: every `Ring` method given a `WinId` selector returns nothing
and leaves the ring (sequence and focus) unchanged. -/
theorem claim8_winid_inert {T : Type} (r : Ring T) (w : Nat) :
    r.element (Selector.WinId w) = none ∧
    r.elementMut (Selector.WinId w) = none ∧
    r.focus (Selector.WinId w) = (r, none) ∧
    r.remove (Selector.WinId w) = some (r, none) :=
  ⟨rfl, rfl, rfl, rfl⟩

/-- Claim C9: on a well-formed non-empty ring, `cycle_focus(d)` followed by
`cycle_focus(d.reverse())` restores `focused_index`, and neither call touches
the element sequence. -/
theorem claim9_cycle_inverse {T : Type} (r : Ring T) (d : Direction)
    (h : r.focused < r.elements.length) :
    ∃ r1 x1 r2 x2, r.cycleFocus d = some (r1, x1) ∧
      r1.cycleFocus d.reverse = some (r2, x2) ∧
      r1.elements = r.elements ∧ r2.elements = r.elements ∧
      r2.focusedIndex = r.focusedIndex := by
  rcases r with ⟨xs, f⟩
  simp only at h
  obtain ⟨m, hm⟩ := Nat.exists_eq_succ_of_ne_zero (show xs.length ≠ 0 by omega)
  have hfm' : f ≤ m := by omega
  cases d with
  | Forward =>
    by_cases hfm : f = m
    · subst hfm
      have hn1 : (Ring.mk xs f).nextIndex Direction.Forward = some 0 := by
        rw [nextIndex_forward _ _ _ hm, if_pos rfl]
      have hn2 : (Ring.mk xs 0).nextIndex Direction.Backward = some f := by
        rw [nextIndex_backward _ _ _ hm, if_pos rfl]
      exact ⟨_, _, _, _, cycleFocus_of_next hn1, cycleFocus_of_next hn2, rfl, rfl, rfl⟩
    · have hn1 : (Ring.mk xs f).nextIndex Direction.Forward = some (f + 1) := by
        rw [nextIndex_forward _ _ _ hm, if_neg hfm]
      have hn2 : (Ring.mk xs (f + 1)).nextIndex Direction.Backward = some f := by
        rw [nextIndex_backward _ _ _ hm, if_neg (Nat.succ_ne_zero f)]
        simp
      exact ⟨_, _, _, _, cycleFocus_of_next hn1, cycleFocus_of_next hn2, rfl, rfl, rfl⟩
  | Backward =>
    by_cases hf0 : f = 0
    · subst hf0
      have hn1 : (Ring.mk xs 0).nextIndex Direction.Backward = some m := by
        rw [nextIndex_backward _ _ _ hm, if_pos rfl]
      have hn2 : (Ring.mk xs m).nextIndex Direction.Forward = some 0 := by
        rw [nextIndex_forward _ _ _ hm, if_pos rfl]
      exact ⟨_, _, _, _, cycleFocus_of_next hn1, cycleFocus_of_next hn2, rfl, rfl, rfl⟩
    · obtain ⟨k, hk⟩ := Nat.exists_eq_succ_of_ne_zero hf0
      subst hk
      have hn1 : (Ring.mk xs (k + 1)).nextIndex Direction.Backward = some k := by
        rw [nextIndex_backward _ _ _ hm, if_neg (Nat.succ_ne_zero k)]
        simp
      have hn2 : (Ring.mk xs k).nextIndex Direction.Forward = some (k + 1) := by
        rw [nextIndex_forward _ _ _ hm, if_neg (by omega)]
      exact ⟨_, _, _, _, cycleFocus_of_next hn1, cycleFocus_of_next hn2, rfl, rfl, rfl⟩

/-- Claim C9 witness: the focus round trip at a concrete ring. -/
theorem claim9_witness :
    (((Ring.new [1, 2, 3] : Ring Nat).cycleFocus Direction.Forward).bind
        (fun p => p.1.cycleFocus Direction.Forward.reverse)).map
      (fun p => p.1.focusedIndex) =
      some ((Ring.new [1, 2, 3] : Ring Nat).focusedIndex) := by
  obtain ⟨r1, x1, r2, x2, hc1, hc2, _, _, hfi⟩ :=
    claim9_cycle_inverse (Ring.new [1, 2, 3] : Ring Nat) Direction.Forward (by decide)
  rw [hc1, Option.some_bind, hc2, Option.map_some', hfi]

/-- Claim C10: on a well-formed non-empty ring, `rotate`, `cycle_focus` and
`drag_focused` keep `len()` and the multiset of elements unchanged (the
sequences before and after are permutations of each other). -/
theorem claim10_preserve_elements {T : Type} (r : Ring T) (d : Direction)
    (h : r.focused < r.elements.length) :
    ((r.rotate d).elements.Perm r.elements ∧
      (r.rotate d).elements.length = r.elements.length) ∧
    (∀ r1 x, r.cycleFocus d = some (r1, x) → r1.elements = r.elements) ∧
    (∃ r2 x, r.dragFocused d = some (r2, x) ∧ r2.elements.Perm r.elements ∧
      r2.elements.length = r.elements.length) := by
  have hne : r.elements ≠ [] := by
    intro hz
    rw [hz] at h
    simp at h
  refine ⟨⟨?_, rotate_length r d⟩, ?_, ?_⟩
  · cases d with
    | Forward =>
      rw [rotate_forward_nonempty r hne]
      show (rotR1 r.elements).Perm r.elements
      exact rotR1_perm _
    | Backward =>
      rw [rotate_backward_nonempty r hne]
      show (rotL1 r.elements).Perm r.elements
      exact rotL1_perm _
  · intro r1 x hc
    rcases Option.map_eq_some'.mp hc with ⟨i, hn, hpair⟩
    cases hpair
    rfl
  · obtain ⟨r', h1, _, hperm, hlen⟩ := dragMaster r d h
    exact ⟨r', _, h1, hperm, hlen⟩

/-- Claim C10 witness: element preservation at a concrete ring. -/
theorem claim10_witness :
    ((Ring.new [1, 2, 3] : Ring Nat).rotate Direction.Forward).elements.Perm
      (Ring.new [1, 2, 3] : Ring Nat).elements ∧
    ((Ring.new [1, 2, 3] : Ring Nat).dragFocused Direction.Forward).map
        (fun p => p.1.elements.length) = some 3 := by
  have h := claim10_preserve_elements (Ring.new [1, 2, 3] : Ring Nat)
    Direction.Forward (by decide)
  refine ⟨h.1.1, ?_⟩
  obtain ⟨r2, x, h1, _, hlen⟩ := h.2.2
  rw [h1, Option.map_some', hlen]
  rfl

end Penrose
